import Mathlib

/-!
Shallow embedding of the parallel-download engine of the wgot/paraget
repository: the chunksize computation and range enqueueing of the handler
(src/paraget/s3handler.py, src/wgot/utils.py), the multipart download
context state machine, the retry policies of BasicTask and
DownloadPartTask (src/wgot/tasks.py), the stable priority queue
(src/wgot/utils.py), and the single-part integrity check
(src/paraget/fileinfo.py).
-/

namespace Wgot

/-- Modelled from the spec: `MAX_PARTS` comes from `wgot/constants.py`,
which is imported by `wgot/utils.py` but absent from the sources; the
spec gives the default `MAX_PARTS = 10000`. -/
def MAX_PARTS : Nat := 10000

/-- Modelled from the spec: `MAX_SINGLE_UPLOAD_SIZE` comes from
`wgot/constants.py`, absent from the sources; the spec gives
`MAX_SINGLE_UPLOAD_SIZE = 5 GiB`. -/
def MAX_SINGLE_UPLOAD_SIZE : Nat := 5 * 1024 * 1024 * 1024

/-- `int(math.ceil(size / float(chunksize)))` from `find_chunksize` in
src/wgot/utils.py, as exact ceiling division on naturals (the float
rounding of the source is ignored; it agrees on all realistic sizes).
Division by zero yields 0, as Nat division does. -/
def ceilDiv (size chunksize : Nat) : Nat :=
  (size + chunksize - 1) / chunksize

/-- The `while num_parts > MAX_PARTS: chunksize *= 2` loop of
`find_chunksize` in src/wgot/utils.py. -/
def chunksizeLoop (size : Nat) (c : Nat) : Nat :=
  if h : MAX_PARTS < ceilDiv size c then
    chunksizeLoop size (2 * c)
  else
    c
termination_by size - c
decreasing_by
  have hc : 0 < c := by
    rcases Nat.eq_zero_or_pos c with h0 | h0
    · subst h0
      simp [ceilDiv, MAX_PARTS] at h
    · exact h0
  have h2 : (MAX_PARTS + 1) * c ≤ size + c - 1 :=
    (Nat.le_div_iff_mul_le hc).mp h
  have h3 : (10000 + 1) * c ≤ size + c - 1 := by
    simpa [MAX_PARTS] using h2
  omega

/-- `find_chunksize` from src/wgot/utils.py lines 132-147: double the
chunksize until the part count is at most `MAX_PARTS`, then cap the
result at `MAX_SINGLE_UPLOAD_SIZE`. -/
def find_chunksize (size current_chunksize : Nat) : Nat :=
  let chunksize := chunksizeLoop size current_chunksize
  if MAX_SINGLE_UPLOAD_SIZE < chunksize then MAX_SINGLE_UPLOAD_SIZE
  else chunksize

lemma find_chunksize_eq_min (size c : Nat) :
    find_chunksize size c = min MAX_SINGLE_UPLOAD_SIZE (chunksizeLoop size c) := by
  simp only [find_chunksize]
  split <;> omega

lemma max_parts_lt_ceilDiv (size c : Nat) (h : MAX_PARTS < ceilDiv size c) :
    0 < c ∧ 10000 * c + 1 ≤ size := by
  have hc : 0 < c := by
    rcases Nat.eq_zero_or_pos c with h0 | h0
    · subst h0
      simp [ceilDiv, MAX_PARTS] at h
    · exact h0
  have h2 : (MAX_PARTS + 1) * c ≤ size + c - 1 :=
    (Nat.le_div_iff_mul_le hc).mp h
  have h3 : (10000 + 1) * c ≤ size + c - 1 := by
    simpa [MAX_PARTS] using h2
  exact ⟨hc, by omega⟩

/-- Characterization of the doubling loop: it returns the first
`c * 2 ^ k` (doubling from `c`) whose part count is within `MAX_PARTS`. -/
lemma chunksizeLoop_spec (size : Nat) :
    ∀ fuel c, size - c ≤ fuel →
      ∃ k, chunksizeLoop size c = c * 2 ^ k ∧
        ceilDiv size (c * 2 ^ k) ≤ MAX_PARTS ∧
        ∀ j, j < k → MAX_PARTS < ceilDiv size (c * 2 ^ j) := by
  intro fuel
  induction fuel with
  | zero =>
    intro c hfc
    refine ⟨0, ?_, ?_, by omega⟩
    · rw [chunksizeLoop]
      rw [dif_neg]
      · ring
      intro h
      have h2 := max_parts_lt_ceilDiv size c h
      omega
    · simp only [pow_zero, mul_one]
      by_contra h
      push_neg at h
      have h2 := max_parts_lt_ceilDiv size c h
      omega
  | succ n ih =>
    intro c hfc
    by_cases h : MAX_PARTS < ceilDiv size c
    · have h2 := max_parts_lt_ceilDiv size c h
      obtain ⟨k, hk1, hk2, hk3⟩ := ih (2 * c) (by omega)
      refine ⟨k + 1, ?_, ?_, ?_⟩
      · rw [chunksizeLoop, dif_pos h, hk1]
        ring
      · have : c * 2 ^ (k + 1) = 2 * c * 2 ^ k := by ring
        rw [this]
        exact hk2
      · intro j hj
        match j with
        | 0 => simpa using h
        | Nat.succ i =>
          have : c * 2 ^ (i + 1) = 2 * c * 2 ^ i := by ring
          rw [this]
          exact hk3 i (by omega)
    · refine ⟨0, ?_, ?_, by omega⟩
      · rw [chunksizeLoop, dif_neg h]
        ring
      · simp only [pow_zero, mul_one]
        omega

lemma chunksizeLoop_pos (size c : Nat) (hc : 0 < c) : 0 < chunksizeLoop size c := by
  obtain ⟨k, hk, -, -⟩ := chunksizeLoop_spec size (size - c) c le_rfl
  rw [hk]
  positivity

lemma chunksizeLoop_le (size c : Nat) (hc : 0 < c) (hcs : c ≤ size) :
    chunksizeLoop size c ≤ size := by
  obtain ⟨k, hk, -, hmin⟩ := chunksizeLoop_spec size (size - c) c le_rfl
  rw [hk]
  match k with
  | 0 => simpa using hcs
  | i + 1 =>
    have h := hmin i (by omega)
    obtain ⟨h1, h2⟩ := max_parts_lt_ceilDiv size (c * 2 ^ i) h
    have : c * 2 ^ (i + 1) = 2 * (c * 2 ^ i) := by ring
    omega

lemma find_chunksize_pos (size c : Nat) (hc : 0 < c) : 0 < find_chunksize size c := by
  rw [find_chunksize_eq_min]
  have h1 := chunksizeLoop_pos size c hc
  have h2 : 0 < MAX_SINGLE_UPLOAD_SIZE := by simp [MAX_SINGLE_UPLOAD_SIZE]
  omega

lemma find_chunksize_le (size c : Nat) (hc : 0 < c) (hcs : c ≤ size) :
    find_chunksize size c ≤ size := by
  rw [find_chunksize_eq_min]
  have := chunksizeLoop_le size c hc hcs
  omega

/-! ## Range download tasks (S3Handler._enqueue_range_download_tasks and
DownloadPartTask._download_part) -/

/-- The byte range of one `DownloadPartTask`: `start` is `part * chunk`;
`stop = none` models the open-ended range header `bytes=start-` and
`stop = some e` the closed header `bytes=start-e`. -/
structure PartRange where
  part : Nat
  start : Nat
  stop : Option Nat
deriving DecidableEq

/-- The range computed by `DownloadPartTask._download_part`
(src/wgot/tasks.py lines 199-206): the part whose number equals
`int(size / chunk) - 1` requests the open-ended range; every other part
requests `bytes=start-(start + chunk - 1)`.  The comparison is made in
`Int` because the Python right-hand side `int(size / chunk) - 1` can be
`-1` when `size < chunk`. -/
def downloadPartRange (size chunk p : Nat) : PartRange :=
  let start_range := p * chunk
  if (p : Int) = (size / chunk : Nat) - 1 then
    { part := p, start := start_range, stop := none }
  else
    { part := p, start := start_range, stop := some (start_range + chunk - 1) }

/-- `num_downloads = int(filename.size / chunksize)` from
`S3Handler._enqueue_range_download_tasks` (src/paraget/s3handler.py
line 167). -/
def num_downloads (size chunk : Nat) : Nat := size / chunk

/-- The ranges of the `DownloadPartTask`s enqueued by
`S3Handler._do_enqueue_range_download_tasks`: part numbers
`0 .. num_downloads - 1`. -/
def enqueuedParts (size chunk : Nat) : List PartRange :=
  (List.range (num_downloads size chunk)).map (downloadPartRange size chunk)

/-- The set of byte offsets written for one part, assuming the range GET
returns exactly the requested bytes: a closed range `bytes=a-e` yields
offsets `[a, e]`, and the open-ended range `bytes=a-` yields all offsets
from `a` to the end of the file of the given size. -/
def writtenBytes (size : Nat) (r : PartRange) : Finset Nat :=
  match r.stop with
  | none => Finset.Ico r.start size
  | some e => Finset.Ico r.start (e + 1)

lemma downloadPartRange_part (size chunk p : Nat) :
    (downloadPartRange size chunk p).part = p := by
  unfold downloadPartRange
  split <;> rfl

lemma downloadPartRange_eq_of_lt (size chunk p : Nat) (hp : p < size / chunk) :
    downloadPartRange size chunk p =
      if p = size / chunk - 1 then
        { part := p, start := p * chunk, stop := none }
      else
        { part := p, start := p * chunk, stop := some (p * chunk + chunk - 1) } := by
  have hN : 1 ≤ size / chunk := by omega
  unfold downloadPartRange
  by_cases h : p = size / chunk - 1
  · rw [if_pos h, if_pos (by push_cast; omega)]
  · rw [if_neg h, if_neg (by push_cast; omega)]

lemma mem_enqueuedParts (size chunk : Nat) (r : PartRange) :
    r ∈ enqueuedParts size chunk ↔
      ∃ p, p < size / chunk ∧ r = downloadPartRange size chunk p := by
  simp only [enqueuedParts, num_downloads, List.mem_map, List.mem_range]
  constructor
  · rintro ⟨p, hp, rfl⟩
    exact ⟨p, hp, rfl⟩
  · rintro ⟨p, hp, rfl⟩
    exact ⟨p, hp, rfl⟩

lemma writtenBytes_last (size chunk : Nat) (hN : 1 ≤ size / chunk) :
    writtenBytes size (downloadPartRange size chunk (size / chunk - 1)) =
      Finset.Ico ((size / chunk - 1) * chunk) size := by
  rw [downloadPartRange_eq_of_lt size chunk _ (by omega), if_pos rfl]
  rfl

lemma writtenBytes_closed (size chunk p : Nat) (hC : 0 < chunk)
    (hp : p < size / chunk) (hne : p ≠ size / chunk - 1) :
    writtenBytes size (downloadPartRange size chunk p) =
      Finset.Ico (p * chunk) (p * chunk + chunk) := by
  rw [downloadPartRange_eq_of_lt size chunk p hp, if_neg hne]
  show Finset.Ico (p * chunk) (p * chunk + chunk - 1 + 1) = _
  congr 1
  omega

/-- Every offset of a part's written range is at least `part * chunk`. -/
lemma writtenBytes_lower (size chunk p x : Nat) (hp : p < size / chunk)
    (hx : x ∈ writtenBytes size (downloadPartRange size chunk p)) :
    p * chunk ≤ x := by
  rw [downloadPartRange_eq_of_lt size chunk p hp] at hx
  by_cases h : p = size / chunk - 1
  · rw [if_pos h] at hx
    exact (Finset.mem_Ico.mp hx).1
  · rw [if_neg h] at hx
    exact (Finset.mem_Ico.mp hx).1

/-- Every offset written by a non-final part is below `(part + 1) * chunk`. -/
lemma writtenBytes_upper (size chunk p x : Nat) (hC : 0 < chunk)
    (hp : p < size / chunk) (hne : p ≠ size / chunk - 1)
    (hx : x ∈ writtenBytes size (downloadPartRange size chunk p)) :
    x < p * chunk + chunk := by
  rw [writtenBytes_closed size chunk p hC hp hne] at hx
  exact (Finset.mem_Ico.mp hx).2

/-- Coverage: every offset of `[0, size)` lies in the range of exactly the
part `min (x / chunk) (num_downloads - 1)`, and every written offset is
inside `[0, size)`. -/
lemma writtenBytes_cover (size chunk x : Nat) (hC : 0 < chunk)
    (hCS : chunk ≤ size) :
    (x < size ↔ ∃ p, p < size / chunk ∧
      x ∈ writtenBytes size (downloadPartRange size chunk p)) := by
  have hN : 1 ≤ size / chunk := (Nat.one_le_div_iff hC).mpr hCS
  have hdm := Nat.div_add_mod x chunk
  have hxm : x % chunk < chunk := Nat.mod_lt x hC
  have hsm := Nat.div_add_mod size chunk
  have hsmod : size % chunk < chunk := Nat.mod_lt size hC
  constructor
  · intro hx
    by_cases h : size / chunk - 1 ≤ x / chunk
    · refine ⟨size / chunk - 1, by omega, ?_⟩
      rw [writtenBytes_last size chunk hN]
      rw [Finset.mem_Ico]
      constructor
      · calc (size / chunk - 1) * chunk ≤ x / chunk * chunk :=
              Nat.mul_le_mul_right chunk h
          _ ≤ x := Nat.div_mul_le_self x chunk
      · exact hx
    · push_neg at h
      refine ⟨x / chunk, by omega, ?_⟩
      rw [writtenBytes_closed size chunk _ hC (by omega) (by omega)]
      rw [Finset.mem_Ico]
      have hcomm : x / chunk * chunk = chunk * (x / chunk) := Nat.mul_comm _ _
      omega
  · rintro ⟨p, hp, hx⟩
    by_cases h : p = size / chunk - 1
    · subst h
      rw [writtenBytes_last size chunk hN] at hx
      exact (Finset.mem_Ico.mp hx).2
    · have hub := writtenBytes_upper size chunk p x hC hp h hx
      have hple : p + 1 ≤ size / chunk - 1 := by omega
      have : (p + 1) * chunk ≤ (size / chunk - 1) * chunk :=
        Nat.mul_le_mul_right chunk hple
      have hdiv : size / chunk * chunk ≤ size := Nat.div_mul_le_self size chunk
      have : (p + 1) * chunk ≤ size := by
        calc (p + 1) * chunk ≤ (size / chunk - 1) * chunk :=
              Nat.mul_le_mul_right chunk hple
          _ ≤ size / chunk * chunk := Nat.mul_le_mul_right chunk (by omega)
          _ ≤ size := hdiv
      calc x < p * chunk + chunk := hub
        _ = (p + 1) * chunk := by ring
        _ ≤ size := this

/-- Disjointness of the ranges of two distinct enqueued parts. -/
lemma writtenBytes_disjoint (size chunk p q : Nat) (hC : 0 < chunk)
    (hp : p < size / chunk) (hq : q < size / chunk) (hpq : p < q) :
    Disjoint (writtenBytes size (downloadPartRange size chunk p))
      (writtenBytes size (downloadPartRange size chunk q)) := by
  rw [Finset.disjoint_left]
  intro x hxp hxq
  have hne : p ≠ size / chunk - 1 := by omega
  have h1 := writtenBytes_upper size chunk p x hC hp hne hxp
  have h2 := writtenBytes_lower size chunk q x hq hxq
  have h3 : (p + 1) * chunk ≤ q * chunk := Nat.mul_le_mul_right chunk (by omega)
  have h4 : (p + 1) * chunk = p * chunk + chunk := by ring
  omega

/-- C1: for a multipart download of a file of known size with the
chunksize returned by `find_chunksize`, the enqueued `DownloadPartTask`s
carry part numbers `0 .. num_downloads - 1`, the part numbered
`num_downloads - 1` requests the open-ended range `bytes=p*C-` and every
other part requests `bytes=p*C-(p+1)*C-1`, and — assuming each range GET
returns exactly the requested bytes — the written ranges cover `[0, size)`
with no gaps and no overlaps. -/
theorem multipart_ranges_partition (size c0 : Nat) (h0 : 0 < c0)
    (hle : c0 ≤ size) :
    (∀ x, x < size ↔ ∃ r ∈ enqueuedParts size (find_chunksize size c0),
        x ∈ writtenBytes size r) ∧
    (∀ r1 ∈ enqueuedParts size (find_chunksize size c0),
      ∀ r2 ∈ enqueuedParts size (find_chunksize size c0),
        r1 ≠ r2 →
          Disjoint (writtenBytes size r1) (writtenBytes size r2)) ∧
    (∀ p, p < num_downloads size (find_chunksize size c0) →
      downloadPartRange size (find_chunksize size c0) p =
        if p = num_downloads size (find_chunksize size c0) - 1 then
          { part := p, start := p * find_chunksize size c0, stop := none }
        else
          { part := p, start := p * find_chunksize size c0,
            stop := some (p * find_chunksize size c0 + find_chunksize size c0 - 1) }) := by
  set C := find_chunksize size c0 with hCdef
  have hC : 0 < C := find_chunksize_pos size c0 h0
  have hCS : C ≤ size := find_chunksize_le size c0 h0 hle
  refine ⟨?_, ?_, ?_⟩
  · intro x
    rw [writtenBytes_cover size C x hC hCS]
    constructor
    · rintro ⟨p, hp, hx⟩
      exact ⟨downloadPartRange size C p,
        (mem_enqueuedParts size C _).mpr ⟨p, hp, rfl⟩, hx⟩
    · rintro ⟨r, hr, hx⟩
      obtain ⟨p, hp, rfl⟩ := (mem_enqueuedParts size C r).mp hr
      exact ⟨p, hp, hx⟩
  · intro r1 hr1 r2 hr2 hne
    obtain ⟨p, hp, rfl⟩ := (mem_enqueuedParts size C r1).mp hr1
    obtain ⟨q, hq, rfl⟩ := (mem_enqueuedParts size C r2).mp hr2
    have hpq : p ≠ q := by
      intro h
      exact hne (by rw [h])
    rcases lt_or_gt_of_ne hpq with h | h
    · exact writtenBytes_disjoint size C p q hC hp hq h
    · exact (writtenBytes_disjoint size C q p hC hq hp h).symm
  · intro p hp
    exact downloadPartRange_eq_of_lt size C p hp

/-- Witness for C1 at `size = 25`, `c0 = 10`. -/
theorem multipart_ranges_partition_witness :
    (∀ x, x < 25 ↔ ∃ r ∈ enqueuedParts 25 (find_chunksize 25 10),
        x ∈ writtenBytes 25 r) ∧
    (∀ r1 ∈ enqueuedParts 25 (find_chunksize 25 10),
      ∀ r2 ∈ enqueuedParts 25 (find_chunksize 25 10),
        r1 ≠ r2 →
          Disjoint (writtenBytes 25 r1) (writtenBytes 25 r2)) ∧
    (∀ p, p < num_downloads 25 (find_chunksize 25 10) →
      downloadPartRange 25 (find_chunksize 25 10) p =
        if p = num_downloads 25 (find_chunksize 25 10) - 1 then
          { part := p, start := p * find_chunksize 25 10, stop := none }
        else
          { part := p, start := p * find_chunksize 25 10,
            stop := some (p * find_chunksize 25 10 + find_chunksize 25 10 - 1) }) :=
  multipart_ranges_partition 25 10 (by norm_num) (by norm_num)

/-! ## MultipartDownloadContext (src/wgot/tasks.py lines 288-361)

The lock and the condition variables only serialize the operations and
wake waiters; the state mutations of the four mutating operations are
modelled as a step function on the context record. -/

inductive CtxState
  | UNSTARTED
  | STARTED
  | COMPLETED
  | CANCELLED
deriving DecidableEq

/-- The mutable fields of `MultipartDownloadContext`. -/
structure MultipartDownloadContext where
  num_parts : Nat
  state : CtxState
  finished_parts : Finset Nat
  current_stream_part_number : Nat
deriving DecidableEq

/-- `MultipartDownloadContext.__init__(num_parts)`. -/
def initCtx (num_parts : Nat) : MultipartDownloadContext :=
  { num_parts := num_parts
    state := CtxState.UNSTARTED
    finished_parts := ∅
    current_stream_part_number := 0 }

/-- The operations that mutate a `MultipartDownloadContext`. -/
inductive CtxOp
  | announce_file_created
  | announce_completed_part (part_number : Nat)
  | done_with_turn
  | cancel
deriving DecidableEq

/-- One mutating operation, as the source performs it under the lock:
`announce_completed_part` adds the part to `finished_parts` and moves to
COMPLETED exactly when `len(finished_parts) == num_parts` afterwards;
`announce_file_created` sets STARTED unconditionally; `done_with_turn`
increments the stream cursor; `cancel` sets CANCELLED. -/
def applyOp (c : MultipartDownloadContext) (op : CtxOp) : MultipartDownloadContext :=
  match op with
  | CtxOp.announce_completed_part p =>
      let fp := insert p c.finished_parts
      { c with
        finished_parts := fp
        state := if fp.card = c.num_parts then CtxState.COMPLETED else c.state }
  | CtxOp.announce_file_created => { c with state := CtxState.STARTED }
  | CtxOp.done_with_turn =>
      { c with current_stream_part_number := c.current_stream_part_number + 1 }
  | CtxOp.cancel => { c with state := CtxState.CANCELLED }

/-- A sequence of mutating operations applied in order. -/
def applyOps (c : MultipartDownloadContext) (ops : List CtxOp) : MultipartDownloadContext :=
  ops.foldl applyOp c

/-- C2 counterexample: CANCELLED is not absorbing.  After `cancel()`,
`announce_file_created()` unconditionally moves the context of a one-part
download back to STARTED. -/
theorem cancelled_not_absorbing :
    (applyOps (initCtx 1) [CtxOp.cancel, CtxOp.announce_file_created]).state =
        CtxState.STARTED ∧
      CtxState.STARTED ≠ CtxState.CANCELLED := by
  constructor
  · rfl
  · decide

/-- C2 as amended: in a CANCELLED context, `cancel` and `done_with_turn`
leave the state CANCELLED, `announce_file_created` moves it to STARTED,
and `announce_completed_part p` moves it to COMPLETED exactly when the
insertion of `p` brings `finished_parts` to `num_parts` elements. -/
theorem cancelled_transition_characterization (c : MultipartDownloadContext)
    (h : c.state = CtxState.CANCELLED) (op : CtxOp) :
    (applyOp c op).state =
      match op with
      | CtxOp.cancel => CtxState.CANCELLED
      | CtxOp.done_with_turn => CtxState.CANCELLED
      | CtxOp.announce_file_created => CtxState.STARTED
      | CtxOp.announce_completed_part p =>
          if (insert p c.finished_parts).card = c.num_parts then CtxState.COMPLETED
          else CtxState.CANCELLED := by
  cases op with
  | announce_completed_part p =>
      simp only [applyOp]
      split <;> simp [h]
  | announce_file_created => rfl
  | done_with_turn => simpa [applyOp] using h
  | cancel => rfl

/-- Witness for the amended C2: a concrete cancelled one-part context
stays CANCELLED under `done_with_turn`. -/
theorem cancelled_transition_characterization_witness :
    (applyOp
        { num_parts := 1, state := CtxState.CANCELLED,
          finished_parts := ∅, current_stream_part_number := 0 }
        CtxOp.done_with_turn).state =
      CtxState.CANCELLED :=
  cancelled_transition_characterization
    { num_parts := 1, state := CtxState.CANCELLED,
      finished_parts := ∅, current_stream_part_number := 0 }
    rfl CtxOp.done_with_turn

/-- C3 counterexample: `cancel()` after the last part has been announced
leaves `|finished_parts| = num_parts` while the state is CANCELLED, not
COMPLETED. -/
theorem completed_iff_full_cex :
    (applyOps (initCtx 1) [CtxOp.announce_completed_part 0, CtxOp.cancel]).finished_parts.card =
        (applyOps (initCtx 1) [CtxOp.announce_completed_part 0, CtxOp.cancel]).num_parts ∧
      (applyOps (initCtx 1) [CtxOp.announce_completed_part 0, CtxOp.cancel]).state ≠
        CtxState.COMPLETED := by
  decide

/-- The invariant behind the amended C3. -/
def ctxInv (n : Nat) (c : MultipartDownloadContext) : Prop :=
  c.num_parts = n ∧ c.finished_parts ⊆ Finset.range n ∧
    (c.state = CtxState.COMPLETED ↔ c.finished_parts.card = n)

lemma ctxInv_announce (n p : Nat) (hp : p < n) (c : MultipartDownloadContext)
    (h : ctxInv n c) : ctxInv n (applyOp c (CtxOp.announce_completed_part p)) := by
  obtain ⟨hnum, hsub, hiff⟩ := h
  have hsub2 : insert p c.finished_parts ⊆ Finset.range n := by
    intro x hx
    rcases Finset.mem_insert.mp hx with rfl | hx
    · exact Finset.mem_range.mpr hp
    · exact hsub hx
  refine ⟨hnum, hsub2, ?_⟩
  simp only [applyOp, hnum]
  by_cases hcard : (insert p c.finished_parts).card = n
  · rw [if_pos hcard]
    simp [hcard]
  · rw [if_neg hcard]
    rw [hiff]
    constructor
    · intro hfull
      exfalso
      have heq : c.finished_parts = Finset.range n :=
        Finset.eq_of_subset_of_card_le hsub (by simp [hfull])
      have hmem : p ∈ c.finished_parts := by
        rw [heq]
        exact Finset.mem_range.mpr hp
      rw [Finset.insert_eq_self.mpr hmem] at hcard
      exact hcard hfull
    · intro h
      exact absurd h hcard

lemma ctxInv_announces (n : Nat) (ps : List Nat) (hps : ∀ p ∈ ps, p < n) :
    ∀ c, ctxInv n c →
      ctxInv n (applyOps c (ps.map CtxOp.announce_completed_part)) := by
  induction ps with
  | nil => intro c h; exact h
  | cons p ps ih =>
      intro c h
      have hp : p < n := hps p (List.mem_cons_self p ps)
      have hps2 : ∀ q ∈ ps, q < n := fun q hq => hps q (List.mem_cons_of_mem p hq)
      exact ih hps2 _ (ctxInv_announce n p hp c h)

/-- C3 as amended: for a context created with `num_parts = n ≥ 1`, along
any sequence of `announce_completed_part` calls whose part numbers are
all below `n`, the state is COMPLETED exactly when `finished_parts` has
`n` elements.  (The unrestricted claim fails: `cancel` or
`announce_file_created` after completion, or announcing more than `n`
out-of-range parts, break the equivalence.) -/
theorem completed_iff_full_parts (n : Nat) (hn : 0 < n) (ps : List Nat)
    (hps : ∀ p ∈ ps, p < n) :
    ((applyOps (initCtx n) (ps.map CtxOp.announce_completed_part)).state =
        CtxState.COMPLETED ↔
      (applyOps (initCtx n) (ps.map CtxOp.announce_completed_part)).finished_parts.card =
        n) := by
  have h0 : ctxInv n (initCtx n) := by
    refine ⟨rfl, by simp [initCtx], ?_⟩
    simp only [initCtx]
    constructor
    · intro h
      exact absurd h (by simp)
    · intro h
      simp at h
      omega
  exact (ctxInv_announces n ps hps (initCtx n) h0).2.2

/-- Witness for the amended C3 at `n = 1`, `ps = [0]`. -/
theorem completed_iff_full_parts_witness :
    ((applyOps (initCtx 1) ([0].map CtxOp.announce_completed_part)).state =
        CtxState.COMPLETED ↔
      (applyOps (initCtx 1) ([0].map CtxOp.announce_completed_part)).finished_parts.card =
        1) :=
  completed_iff_full_parts 1 (by decide) [0] (by decide)

/-- C10: `announce_completed_part` is idempotent per part number —
announcing the same part a second time changes nothing — the COMPLETED
transition fires on a non-COMPLETED context exactly when the announced
set reaches `num_parts` elements, and along any trace of announcements
from a fresh context `finished_parts` is precisely the set of distinct
announced part numbers. -/
theorem announce_completed_part_idempotent :
    (∀ (c : MultipartDownloadContext) (p : Nat),
      applyOp (applyOp c (CtxOp.announce_completed_part p))
          (CtxOp.announce_completed_part p) =
        applyOp c (CtxOp.announce_completed_part p)) ∧
    (∀ (c : MultipartDownloadContext) (p : Nat),
      c.state ≠ CtxState.COMPLETED →
        ((applyOp c (CtxOp.announce_completed_part p)).state = CtxState.COMPLETED ↔
          (insert p c.finished_parts).card = c.num_parts)) ∧
    (∀ (n : Nat) (ps : List Nat),
      (applyOps (initCtx n) (ps.map CtxOp.announce_completed_part)).finished_parts =
        ps.toFinset) := by
  refine ⟨?_, ?_, ?_⟩
  · intro c p
    simp only [applyOp, Finset.insert_idem]
    split <;> rfl
  · intro c p hne
    simp only [applyOp]
    by_cases h : (insert p c.finished_parts).card = c.num_parts
    · rw [if_pos h]
      simp [h]
    · rw [if_neg h]
      simp only [h, iff_false]
      exact hne
  · intro n ps
    have key : ∀ (qs : List Nat) (c : MultipartDownloadContext),
        (applyOps c (qs.map CtxOp.announce_completed_part)).finished_parts =
          qs.foldl (fun s q => insert q s) c.finished_parts := by
      intro qs
      induction qs with
      | nil => intro c; rfl
      | cons q qs ih =>
          intro c
          simp only [List.map_cons, applyOps, List.foldl_cons]
          exact ih _
    rw [key]
    have : ∀ (qs : List Nat) (s : Finset Nat),
        qs.foldl (fun t q => insert q t) s = s ∪ qs.toFinset := by
      intro qs
      induction qs with
      | nil => intro s; simp
      | cons q qs ih =>
          intro s
          simp only [List.foldl_cons, List.toFinset_cons, ih]
          ext x
          simp only [Finset.mem_union, Finset.mem_insert, List.mem_toFinset]
          tauto
    rw [this]
    simp [initCtx]

/-! ## Exceptions, print messages, and the task retry policies
(src/wgot/tasks.py) -/

/-- The exception classes a download call can raise, with the subclass
structure of the `requests` library: `ConnectTimeout` derives from both
`ConnectionError` and `Timeout`, while `ReadTimeout` derives from
`Timeout` only. -/
inductive PyExc
  | connectionError (m : String)
  | connectTimeout (m : String)
  | readTimeout (m : String)
  | md5Error (m : String)
  | incompleteRead (m : String)
  | otherError (m : String)
deriving DecidableEq

/-- `str(e)` for the modelled exceptions. -/
def excMsg : PyExc → String
  | PyExc.connectionError m => m
  | PyExc.connectTimeout m => m
  | PyExc.readTimeout m => m
  | PyExc.md5Error m => m
  | PyExc.incompleteRead m => m
  | PyExc.otherError m => m

/-- Membership in `requests.ConnectionError` (which `ConnectTimeout`
subclasses; `ReadTimeout` does not). -/
def isRequestsConnectionError : PyExc → Bool
  | PyExc.connectionError _ => true
  | PyExc.connectTimeout _ => true
  | _ => false

/-- Membership in `requests.Timeout` (both `ConnectTimeout` and
`ReadTimeout` subclass it). -/
def isRequestsTimeout : PyExc → Bool
  | PyExc.connectTimeout _ => true
  | PyExc.readTimeout _ => true
  | _ => false

/-- Membership in `MD5Error` from src/wgot/utils.py. -/
def isMD5Error : PyExc → Bool
  | PyExc.md5Error _ => true
  | _ => false

/-- Membership in `IncompleteReadError` from src/wgot/utils.py. -/
def isIncompleteReadError : PyExc → Bool
  | PyExc.incompleteRead _ => true
  | _ => false

/-- The fields of a `FileInfo` that the task code reads.  `dest` stands
for `relative_path(filename.dest)` already computed (the path arithmetic
of `relative_path` is filesystem-dependent and not modelled). -/
structure FileRec where
  src : String
  dest : String
  operation_name : String
  is_stream : Bool
  size : Option Nat
deriving DecidableEq

/-- `PrintTask` from src/wgot/utils.py lines 226-237. -/
structure PrintTask where
  message : String
  error : Bool
  total_parts : Option Nat
  warning : Option Bool
deriving DecidableEq

/-- `print_operation` from src/wgot/tasks.py lines 28-42. -/
def print_operation (f : FileRec) (failed : Bool) (dryrun : Bool) : String :=
  let s := f.operation_name
  let s := if dryrun then "(dryrun) " ++ s else s
  let s := if failed then s ++ " failed" else s
  let s := s ++ ": " ++ f.src
  if !f.is_stream then s ++ " to " ++ f.dest else s

/-- `BasicTask._queue_print_message` (src/wgot/tasks.py lines 97-108):
one `PrintTask` is enqueued unless the operation is `list_objects`. -/
def queue_print_message (f : FileRec) (failed : Bool) (dryrun : Bool)
    (error_message : Option String) : List PrintTask :=
  if f.operation_name ≠ "list_objects" then
    let message := print_operation f failed dryrun
    let message :=
      match error_message with
      | some m => message ++ " " ++ m
      | none => message
    [{ message := message, error := failed, total_parts := none, warning := none }]
  else []

/-- `BasicTask._execute_task` (src/wgot/tasks.py lines 68-95).  The
download call of each attempt is modelled by the next entry of
`outcomes` (`none` = success, `some e` = raised `e`; a missing entry
counts as success).  Returns the enqueued `PrintTask`s and the number of
download calls made.  A `requests.ConnectionError` or an `MD5Error`
triggers a recursive retry with the error text as `last_error`; any
other exception is fatal; running out of attempts reports the last
error. -/
def execute_task (f : FileRec) (dryrun : Bool) :
    Nat → String → List (Option PyExc) → List PrintTask × Nat
  | 0, last_error, _ => (queue_print_message f true dryrun (some last_error), 0)
  | n + 1, _, outcomes =>
    if dryrun then (queue_print_message f false dryrun none, 0)
    else
      match outcomes.headD none with
      | none => (queue_print_message f false dryrun none, 1)
      | some e =>
        if isRequestsConnectionError e || isMD5Error e then
          let r := execute_task f dryrun n (excMsg e) outcomes.tail
          (r.1, r.2 + 1)
        else (queue_print_message f true dryrun (some (excMsg e)), 1)

/-- `BasicTask.__call__` runs `_execute_task(attempts=3)`. -/
def basicTaskCall (f : FileRec) (dryrun : Bool)
    (outcomes : List (Option PyExc)) : List PrintTask × Nat :=
  execute_task f dryrun 3 "" outcomes

/-- Whether the `BasicTask` run reports success: some attempt among the
first `n` succeeds, every earlier attempt having raised a retryable
(connection-class or MD5) error. -/
def basicSucceeds (dryrun : Bool) : Nat → List (Option PyExc) → Bool
  | 0, _ => false
  | n + 1, outcomes =>
    if dryrun then true
    else
      match outcomes.headD none with
      | none => true
      | some e =>
        (isRequestsConnectionError e || isMD5Error e) &&
          basicSucceeds dryrun n outcomes.tail

/-- The error text attached to the final `PrintTask` of a `BasicTask`
run: the fatal error's text, or the last retryable error's text when
the attempts run out, or nothing on success. -/
def basicFinalError (dryrun : Bool) : Nat → String → List (Option PyExc) → Option String
  | 0, last_error, _ => some last_error
  | n + 1, _, outcomes =>
    if dryrun then none
    else
      match outcomes.headD none with
      | none => none
      | some e =>
        if isRequestsConnectionError e || isMD5Error e then
          basicFinalError dryrun n (excMsg e) outcomes.tail
        else some (excMsg e)

lemma execute_task_eq (f : FileRec) :
    ∀ (dryrun : Bool) (n : Nat) (last_error : String) (outcomes : List (Option PyExc)),
      execute_task f dryrun n last_error outcomes =
        (queue_print_message f (!basicSucceeds dryrun n outcomes) dryrun
          (basicFinalError dryrun n last_error outcomes),
         (execute_task f dryrun n last_error outcomes).2) := by
  intro dryrun
  cases dryrun with
  | true =>
      intro n last_error outcomes
      cases n with
      | zero => rfl
      | succ n => rfl
  | false =>
      intro n
      induction n with
      | zero => intro last_error outcomes; rfl
      | succ n ih =>
          intro last_error outcomes
          simp only [execute_task, basicSucceeds, basicFinalError,
            Bool.false_eq_true, if_false]
          match houtcome : outcomes.headD none with
          | none => simp
          | some e =>
            by_cases hr : (isRequestsConnectionError e || isMD5Error e) = true
            · simp only [hr, if_true, Bool.true_and]
              rw [ih (excMsg e) outcomes.tail]
            · simp only [Bool.not_eq_true] at hr
              simp [hr]

lemma execute_task_attempts (f : FileRec) :
    ∀ (dryrun : Bool) (n : Nat) (last_error : String) (outcomes : List (Option PyExc)),
      (execute_task f dryrun n last_error outcomes).2 ≤ n := by
  intro dryrun
  cases dryrun with
  | true =>
      intro n last_error outcomes
      cases n with
      | zero => simp [execute_task]
      | succ n => simp [execute_task]
  | false =>
      intro n
      induction n with
      | zero => intro last_error outcomes; simp [execute_task]
      | succ n ih =>
          intro last_error outcomes
          simp only [execute_task, Bool.false_eq_true, if_false]
          match outcomes.headD none with
          | none => simp
          | some e =>
            by_cases hr : (isRequestsConnectionError e || isMD5Error e) = true
            · simp only [hr, if_true]
              have := ih (excMsg e) outcomes.tail
              omega
            · simp only [Bool.not_eq_true] at hr
              simp [hr]

/-- A concrete download descriptor used for witnesses and counterexamples. -/
def sampleFile : FileRec :=
  { src := "http://host/f", dest := "f", operation_name := "download",
    is_stream := false, size := none }

/-- C5 counterexample: a read timeout is not a `requests.ConnectionError`,
so `BasicTask._execute_task` does not retry it — the run stops after a
single download call and reports failure even though a second attempt
(which would succeed) was available. -/
theorem basicTask_read_timeout_cex :
    (basicTaskCall sampleFile false
        [some (PyExc.readTimeout "read timed out"), none]).2 = 1 ∧
      ((basicTaskCall sampleFile false
          [some (PyExc.readTimeout "read timed out"), none]).1.map PrintTask.error) =
        [true] :=
  ⟨rfl, rfl⟩

/-- C5 as amended: `BasicTask` makes at most 3 download attempts; a
connection-class error (`requests.ConnectionError`, which includes
connect timeouts but not read timeouts) or an integrity (`MD5Error`)
error triggers a retry carrying its text as the last error, any other
exception (a read timeout included) is fatal with no further attempts,
running out of attempts fails with the last retryable error's text, and
every terminal outcome enqueues exactly one `PrintTask` whose error flag
is the failure flag of the run and whose message carries the most recent
error text. -/
theorem basicTask_retry_policy (f : FileRec) (dryrun : Bool)
    (outcomes : List (Option PyExc)) (hop : f.operation_name ≠ "list_objects") :
    (basicTaskCall f dryrun outcomes).2 ≤ 3 ∧
    (basicTaskCall f dryrun outcomes).1.length = 1 ∧
    (∀ pt ∈ (basicTaskCall f dryrun outcomes).1,
      pt.error = !basicSucceeds dryrun 3 outcomes ∧
      pt.message =
        (match basicFinalError dryrun 3 "" outcomes with
          | some m =>
              print_operation f (!basicSucceeds dryrun 3 outcomes) dryrun ++ " " ++ m
          | none => print_operation f (!basicSucceeds dryrun 3 outcomes) dryrun)) ∧
    (∀ (n : Nat) (last_error : String) (e : PyExc) (os : List (Option PyExc)),
      ((isRequestsConnectionError e || isMD5Error e) = true →
        execute_task f false (n + 1) last_error (some e :: os) =
          ((execute_task f false n (excMsg e) os).1,
            (execute_task f false n (excMsg e) os).2 + 1)) ∧
      ((isRequestsConnectionError e || isMD5Error e) = false →
        execute_task f false (n + 1) last_error (some e :: os) =
          (queue_print_message f true false (some (excMsg e)), 1)) ∧
      execute_task f false (n + 1) last_error (none :: os) =
        (queue_print_message f false false none, 1) ∧
      execute_task f false 0 last_error os =
        (queue_print_message f true false (some last_error), 0)) := by
  have key := execute_task_eq f dryrun 3 "" outcomes
  refine ⟨execute_task_attempts f dryrun 3 "" outcomes, ?_, ?_, ?_⟩
  · show (execute_task f dryrun 3 "" outcomes).1.length = 1
    rw [key]
    simp [queue_print_message, hop]
  · intro pt hpt
    rw [show basicTaskCall f dryrun outcomes = execute_task f dryrun 3 "" outcomes from rfl,
      key] at hpt
    simp only [queue_print_message, hop, ne_eq, not_false_iff, if_true,
      List.mem_singleton] at hpt
    subst hpt
    constructor
    · rfl
    · cases basicFinalError dryrun 3 "" outcomes <;> rfl
  · intro n last_error e os
    refine ⟨?_, ?_, ?_, ?_⟩
    · intro hr
      simp [execute_task, hr]
    · intro hr
      simp [execute_task, hr]
    · simp [execute_task]
    · rfl

/-- Witness for the amended C5 at a concrete file, `dryrun = false` and an
empty outcome list (every attempt succeeds). -/
theorem basicTask_retry_policy_witness :
    (basicTaskCall sampleFile false []).2 ≤ 3 ∧
    (basicTaskCall sampleFile false []).1.length = 1 ∧
    (∀ pt ∈ (basicTaskCall sampleFile false []).1,
      pt.error = !basicSucceeds false 3 [] ∧
      pt.message =
        (match basicFinalError false 3 "" [] with
          | some m =>
              print_operation sampleFile (!basicSucceeds false 3 []) false ++ " " ++ m
          | none => print_operation sampleFile (!basicSucceeds false 3 []) false)) ∧
    (∀ (n : Nat) (last_error : String) (e : PyExc) (os : List (Option PyExc)),
      ((isRequestsConnectionError e || isMD5Error e) = true →
        execute_task sampleFile false (n + 1) last_error (some e :: os) =
          ((execute_task sampleFile false n (excMsg e) os).1,
            (execute_task sampleFile false n (excMsg e) os).2 + 1)) ∧
      ((isRequestsConnectionError e || isMD5Error e) = false →
        execute_task sampleFile false (n + 1) last_error (some e :: os) =
          (queue_print_message sampleFile true false (some (excMsg e)), 1)) ∧
      execute_task sampleFile false (n + 1) last_error (none :: os) =
        (queue_print_message sampleFile false false none, 1) ∧
      execute_task sampleFile false 0 last_error os =
        (queue_print_message sampleFile true false (some last_error), 0)) :=
  basicTask_retry_policy sampleFile false [] (by decide)

/-- The terminal outcome of `DownloadPartTask._download_part`. -/
inductive PartOutcome
  | completed
  | raised (e : PyExc)
  | retriesExceeded
deriving DecidableEq

/-- The `for i in range(TOTAL_ATTEMPTS)` loop of
`DownloadPartTask._download_part` (src/wgot/tasks.py lines 209-241).
Each attempt's GET-and-write is modelled by the next entry of `outcomes`
(`none` = success, `some e` = raised `e`; a missing entry counts as
success).  A `requests.Timeout` or an `IncompleteReadError` makes the
loop continue; any other exception escapes the loop; falling off the
loop raises `RetriesExeededError`.  Returns the outcome and the number
of attempts made. -/
def downloadPartLoop : Nat → List (Option PyExc) → PartOutcome × Nat
  | 0, _ => (PartOutcome.retriesExceeded, 0)
  | n + 1, outcomes =>
    match outcomes.headD none with
    | none => (PartOutcome.completed, 1)
    | some e =>
      if isRequestsTimeout e || isIncompleteReadError e then
        let r := downloadPartLoop n outcomes.tail
        (r.1, r.2 + 1)
      else (PartOutcome.raised e, 1)

/-- The observable result of `DownloadPartTask.__call__`. -/
structure PartCallResult where
  outcome : PartOutcome
  attempts : Nat
  cancelled : Bool
deriving DecidableEq

/-- `DownloadPartTask.__call__` (src/wgot/tasks.py lines 189-197):
`TOTAL_ATTEMPTS = 5`; any exception escaping `_download_part`
(`RetriesExeededError` included) cancels the task's context and is
re-raised. -/
def downloadPartTaskCall (outcomes : List (Option PyExc)) : PartCallResult :=
  let r := downloadPartLoop 5 outcomes
  { outcome := r.1
    attempts := r.2
    cancelled :=
      match r.1 with
      | PartOutcome.completed => false
      | _ => true }

/-- Membership in `requests.ReadTimeout`. -/
def isRequestsReadTimeout : PyExc → Bool
  | PyExc.readTimeout _ => true
  | _ => false

lemma downloadPartLoop_attempts :
    ∀ (n : Nat) (outcomes : List (Option PyExc)),
      (downloadPartLoop n outcomes).2 ≤ n := by
  intro n
  induction n with
  | zero => intro outcomes; simp [downloadPartLoop]
  | succ n ih =>
      intro outcomes
      simp only [downloadPartLoop]
      match outcomes.headD none with
      | none => simp
      | some e =>
        by_cases hr : (isRequestsTimeout e || isIncompleteReadError e) = true
        · simp only [hr, if_true]
          have := ih outcomes.tail
          omega
        · simp only [Bool.not_eq_true] at hr
          simp [hr]

/-- C6 counterexample: a connect timeout is neither a read timeout nor an
`IncompleteRead`, yet `DownloadPartTask` retries it — the run completes
on the second attempt without cancelling the context, where the claim
requires cancellation and propagation. -/
theorem downloadPart_connect_timeout_cex :
    isRequestsReadTimeout (PyExc.connectTimeout "t") = false ∧
    isIncompleteReadError (PyExc.connectTimeout "t") = false ∧
    (downloadPartTaskCall [some (PyExc.connectTimeout "t"), none]).outcome =
      PartOutcome.completed ∧
    (downloadPartTaskCall [some (PyExc.connectTimeout "t"), none]).cancelled = false ∧
    (downloadPartTaskCall [some (PyExc.connectTimeout "t"), none]).attempts = 2 :=
  ⟨rfl, rfl, rfl, rfl, rfl⟩

/-- C6 as amended: `DownloadPartTask` makes at most 5 attempts; a
`requests.Timeout` (read or connect) or an `IncompleteRead` makes it
retry, any other exception escapes the loop immediately, falling off the
loop raises `RetriesExeededError`, and every exception escaping
`_download_part` (`RetriesExeededError` included) cancels the task's
`PartContext` and is propagated. -/
theorem downloadPart_retry_policy (outcomes : List (Option PyExc)) :
    (downloadPartTaskCall outcomes).attempts ≤ 5 ∧
    (∀ (n : Nat) (e : PyExc) (os : List (Option PyExc)),
      ((isRequestsTimeout e || isIncompleteReadError e) = true →
        downloadPartLoop (n + 1) (some e :: os) =
          ((downloadPartLoop n os).1, (downloadPartLoop n os).2 + 1)) ∧
      ((isRequestsTimeout e || isIncompleteReadError e) = false →
        downloadPartLoop (n + 1) (some e :: os) = (PartOutcome.raised e, 1)) ∧
      downloadPartLoop (n + 1) (none :: os) = (PartOutcome.completed, 1) ∧
      downloadPartLoop 0 os = (PartOutcome.retriesExceeded, 0)) ∧
    ((downloadPartTaskCall outcomes).cancelled = true ↔
      (downloadPartTaskCall outcomes).outcome ≠ PartOutcome.completed) := by
  refine ⟨downloadPartLoop_attempts 5 outcomes, ?_, ?_⟩
  · intro n e os
    refine ⟨?_, ?_, ?_, ?_⟩
    · intro hr
      simp [downloadPartLoop, hr]
    · intro hr
      simp [downloadPartLoop, hr]
    · simp [downloadPartLoop]
    · rfl
  · show (match (downloadPartLoop 5 outcomes).1 with
      | PartOutcome.completed => false
      | _ => true) = true ↔ (downloadPartLoop 5 outcomes).1 ≠ PartOutcome.completed
    cases (downloadPartLoop 5 outcomes).1 <;> simp

/-- C8 counterexample: the source doubles the chunksize instead of taking
`max(C0, size / MAX_PARTS)`.  At `size = 30000`, `C0 = 1` the loop
doubles twice and returns 4, while the claimed formula gives
`min(max(1, 30000 / 10000), 5 GiB) = 3`. -/
theorem find_chunksize_formula_cex :
    find_chunksize 30000 1 = 4 ∧
    min (max 1 (30000 / MAX_PARTS)) MAX_SINGLE_UPLOAD_SIZE = 3 ∧
    find_chunksize 30000 1 ≠
      min (max 1 (30000 / MAX_PARTS)) MAX_SINGLE_UPLOAD_SIZE := by
  have hA : find_chunksize 30000 1 = 4 := by
    have h1 : chunksizeLoop 30000 1 = 4 := by
      rw [chunksizeLoop.eq_def, dif_pos (by norm_num [ceilDiv, MAX_PARTS])]
      rw [chunksizeLoop.eq_def, dif_pos (by norm_num [ceilDiv, MAX_PARTS])]
      rw [chunksizeLoop.eq_def, dif_neg (by norm_num [ceilDiv, MAX_PARTS])]
    rw [find_chunksize_eq_min, h1]
    norm_num [MAX_SINGLE_UPLOAD_SIZE]
  have hB : min (max 1 (30000 / MAX_PARTS)) MAX_SINGLE_UPLOAD_SIZE = 3 := by
    norm_num [MAX_PARTS, MAX_SINGLE_UPLOAD_SIZE]
  refine ⟨hA, hB, ?_⟩
  rw [hA, hB]
  norm_num

/-- C8 as amended: `find_chunksize` returns the first chunksize of the
form `C0 * 2 ^ k` (doubling from the current chunksize `C0`) whose part
count `⌈size / chunksize⌉` is at most `MAX_PARTS`, capped at
`MAX_SINGLE_UPLOAD_SIZE`; whenever the cap does not apply, the part
count of the returned chunksize is at most `MAX_PARTS`. -/
theorem find_chunksize_characterization (size c0 : Nat) :
    ∃ k : Nat,
      chunksizeLoop size c0 = c0 * 2 ^ k ∧
      ceilDiv size (c0 * 2 ^ k) ≤ MAX_PARTS ∧
      (∀ j, j < k → MAX_PARTS < ceilDiv size (c0 * 2 ^ j)) ∧
      find_chunksize size c0 = min MAX_SINGLE_UPLOAD_SIZE (c0 * 2 ^ k) ∧
      (chunksizeLoop size c0 ≤ MAX_SINGLE_UPLOAD_SIZE →
        ceilDiv size (find_chunksize size c0) ≤ MAX_PARTS) := by
  obtain ⟨k, h1, h2, h3⟩ := chunksizeLoop_spec size (size - c0) c0 le_rfl
  refine ⟨k, h1, h2, h3, ?_, ?_⟩
  · rw [find_chunksize_eq_min, h1]
  · intro hcap
    rw [find_chunksize_eq_min, min_eq_right hcap, h1]
    exact h2

/-! ## Single-part integrity check (src/paraget/fileinfo.py lines 15-79) -/

/-- The response fields `save_file` reads: the body as the list of chunks
returned by successive `body.read(1024 * 1024)` calls, the raw `ETag`
header (quotes included) and the optional `ServerSideEncryption`
header. -/
structure ResponseData where
  chunks : List (List Nat)
  ETag : String
  ServerSideEncryption : Option String

/-- The observable effects of one `save_file` call. -/
structure SaveResult where
  fileContents : Option (List Nat)
  fileRemoved : Bool
  stdoutBytes : List Nat
  raisedMD5 : Bool
deriving DecidableEq

/-- `'-' in etag` — `_is_multipart_etag` from src/paraget/fileinfo.py. -/
def is_multipart_etag (etag : String) : Bool := etag.contains (Char.ofNat 45)

/-- `save_file` from src/paraget/fileinfo.py lines 15-58, with the MD5
computation abstracted by the hash function `md5hex` (applied to the
whole body; `write_to_file` updates the digest chunk by chunk, which
amounts to hashing the concatenation).  `etag` is the `ETag` header with
its first and last characters stripped.  Directory creation and the
mtime fix-up are filesystem effects outside the model.  A non-stream
call writes the body to the destination file; when the etag is
single-part and the response is not KMS-encrypted, a digest mismatch
removes that file and raises `MD5Error`.  A stream call buffers the body
and writes it to standard output only after the check passes. -/
def save_file (md5hex : List Nat → String) (rd : ResponseData)
    (is_stream : Bool) : SaveResult :=
  let etag := (rd.ETag.drop 1).dropRight 1
  let sse := rd.ServerSideEncryption
  let payload := rd.chunks.flatten
  if !is_multipart_etag etag && !(sse == some "aws:kms") &&
      !(etag == md5hex payload) then
    if !is_stream then
      { fileContents := some payload, fileRemoved := true,
        stdoutBytes := [], raisedMD5 := true }
    else
      { fileContents := none, fileRemoved := false,
        stdoutBytes := [], raisedMD5 := true }
  else
    if is_stream then
      { fileContents := none, fileRemoved := false,
        stdoutBytes := payload, raisedMD5 := false }
    else
      { fileContents := some payload, fileRemoved := false,
        stdoutBytes := [], raisedMD5 := false }

/-- C7: with a verifiable advertised checksum (single-part etag, not
KMS-encrypted), a mismatch on a non-stream transfer removes the written
file and raises `MD5Error`; a multi-part etag or a KMS-encrypted
response skips verification entirely (nothing raised, nothing removed,
payload delivered); and a stream transfer writes the buffered payload to
standard output exactly when no `MD5Error` is raised, so nothing reaches
standard output on a mismatch. -/
theorem save_file_integrity (md5hex : List Nat → String) (rd : ResponseData)
    (is_stream : Bool) :
    (is_multipart_etag ((rd.ETag.drop 1).dropRight 1) = false →
      rd.ServerSideEncryption ≠ some "aws:kms" →
      (rd.ETag.drop 1).dropRight 1 ≠ md5hex rd.chunks.flatten →
      is_stream = false →
      (save_file md5hex rd is_stream).fileRemoved = true ∧
        (save_file md5hex rd is_stream).raisedMD5 = true) ∧
    (is_multipart_etag ((rd.ETag.drop 1).dropRight 1) = true ∨
        rd.ServerSideEncryption = some "aws:kms" →
      (save_file md5hex rd is_stream).raisedMD5 = false ∧
        (save_file md5hex rd is_stream).fileRemoved = false ∧
        (save_file md5hex rd is_stream).stdoutBytes =
          (if is_stream then rd.chunks.flatten else []) ∧
        (save_file md5hex rd is_stream).fileContents =
          (if is_stream then none else some rd.chunks.flatten)) ∧
    (is_stream = true →
      ((save_file md5hex rd is_stream).raisedMD5 = true →
        (save_file md5hex rd is_stream).stdoutBytes = []) ∧
      ((save_file md5hex rd is_stream).raisedMD5 = false →
        (save_file md5hex rd is_stream).stdoutBytes = rd.chunks.flatten)) := by
  refine ⟨?_, ?_, ?_⟩
  · intro hmp hsse hne hstream
    subst hstream
    simp only [save_file, hmp, Bool.not_false, Bool.true_and]
    rw [if_pos]
    · exact ⟨rfl, rfl⟩
    · simp only [Bool.and_eq_true, Bool.not_eq_true', beq_eq_false_iff_ne]
      exact ⟨hsse, hne⟩
  · intro h
    have hcond : (!is_multipart_etag ((rd.ETag.drop 1).dropRight 1) &&
        !(rd.ServerSideEncryption == some "aws:kms") &&
        !((rd.ETag.drop 1).dropRight 1 == md5hex rd.chunks.flatten)) = false := by
      rcases h with h | h
      · simp [h]
      · simp [h]
    simp only [save_file, hcond, Bool.false_eq_true, if_false]
    cases is_stream <;> simp
  · intro hstream
    subst hstream
    simp only [save_file]
    by_cases hcond : (!is_multipart_etag ((rd.ETag.drop 1).dropRight 1) &&
        !(rd.ServerSideEncryption == some "aws:kms") &&
        !((rd.ETag.drop 1).dropRight 1 == md5hex rd.chunks.flatten)) = true
    · simp [hcond]
    · simp only [Bool.not_eq_true] at hcond
      simp [hcond]

/-! ## Handler path selection (src/paraget/s3handler.py lines 131-191) -/

/-- `S3Handler._is_multipart_task` (src/paraget/s3handler.py lines
155-163): truthy exactly when the file has a known size strictly above
the multipart threshold (the source returns `None`, which is falsy, for
a known size at or below the threshold). -/
def is_multipart_task (multi_threshold : Nat) (f : FileRec) : Bool :=
  match f.size with
  | some s => multi_threshold < s
  | none => false

/-- The tasks `S3Handler._enqueue_tasks` can submit to the executor for
one file. -/
inductive SubmittedTask
  | createLocalFile
  | downloadPart (part_number : Nat) (chunk : Nat)
  | completeDownload
  | basic
deriving DecidableEq

/-- `S3Handler._enqueue_range_download_tasks` (src/paraget/s3handler.py
lines 165-181): one `CreateLocalFileTask`, then `num_downloads`
`DownloadPartTask`s with the chunksize from `find_chunksize`, then one
`CompleteDownloadTask`. -/
def enqueue_range_download_tasks (chunksize0 : Nat) (f : FileRec) :
    List SubmittedTask :=
  let size := f.size.getD 0
  let chunksize := find_chunksize size chunksize0
  SubmittedTask.createLocalFile ::
    ((List.range (num_downloads size chunksize)).map
      (fun i => SubmittedTask.downloadPart i chunksize) ++
      [SubmittedTask.completeDownload])

/-- The per-file branch of `S3Handler._enqueue_tasks` (src/paraget/
s3handler.py lines 134-150): the multipart tasks when the file is
multipart-eligible and not a dry run, else a single `BasicTask`. -/
def tasks_for_file (multi_threshold chunksize0 : Nat) (dryrun : Bool)
    (f : FileRec) : List SubmittedTask :=
  if is_multipart_task multi_threshold f && !dryrun then
    enqueue_range_download_tasks chunksize0 f
  else [SubmittedTask.basic]

/-- C9: the multipart path (CreateLocalFileTask, DownloadPartTasks,
CompleteDownloadTask) is taken exactly when the size is known, strictly
above the threshold, and the run is not a dry run; in every other case
(size unknown, size at or below the threshold, or dryrun) exactly one
`BasicTask` is submitted for the file, and the multipart path submits no
`BasicTask`. -/
theorem handler_path_selection (multi_threshold chunksize0 : Nat)
    (dryrun : Bool) (f : FileRec) :
    (is_multipart_task multi_threshold f = true ↔
      ∃ s, f.size = some s ∧ multi_threshold < s) ∧
    ((is_multipart_task multi_threshold f && !dryrun) = true →
      tasks_for_file multi_threshold chunksize0 dryrun f =
          enqueue_range_download_tasks chunksize0 f ∧
        (tasks_for_file multi_threshold chunksize0 dryrun f).count
            SubmittedTask.basic = 0 ∧
        SubmittedTask.createLocalFile ∈
          tasks_for_file multi_threshold chunksize0 dryrun f ∧
        SubmittedTask.completeDownload ∈
          tasks_for_file multi_threshold chunksize0 dryrun f) ∧
    ((is_multipart_task multi_threshold f && !dryrun) = false →
      tasks_for_file multi_threshold chunksize0 dryrun f =
        [SubmittedTask.basic]) := by
  refine ⟨?_, ?_, ?_⟩
  · unfold is_multipart_task
    match hs : f.size with
    | some s => simp [hs]
    | none => simp [hs]
  · intro h
    have ht : tasks_for_file multi_threshold chunksize0 dryrun f =
        enqueue_range_download_tasks chunksize0 f := by
      unfold tasks_for_file
      rw [if_pos h]
    refine ⟨ht, ?_, ?_, ?_⟩
    · rw [ht]
      unfold enqueue_range_download_tasks
      simp [List.count_cons, List.count_append, List.count_eq_zero, List.mem_map]
    · rw [ht]
      unfold enqueue_range_download_tasks
      exact List.mem_cons_self _ _
    · rw [ht]
      unfold enqueue_range_download_tasks
      simp
  · intro h
    unfold tasks_for_file
    rw [if_neg]
    simp [h]

/-! ## StablePriorityQueue (src/wgot/utils.py lines 37-78)

The unsynchronized `_put`/`_get` primitives are modelled directly; the
blocking wrappers of `queue.Queue` only serialize calls.  Stored items
are stamped with a global enqueue counter so that FIFO order within a
priority level is observable. -/

/-- An object offered to the queue: `PRIORITY = none` models an object
without a `PRIORITY` attribute. -/
structure QueueItem where
  PRIORITY : Option Nat
  payload : Nat
deriving DecidableEq

/-- A stored entry: the item together with its enqueue stamp. -/
structure QueueEntry where
  seq : Nat
  item : QueueItem
deriving DecidableEq

/-- The queue state: `priorities` is the bucket list (index = priority
level, `max_priority + 1` buckets), `counter` the next enqueue stamp. -/
structure StablePriorityQueue where
  max_priority : Nat
  counter : Nat
  priorities : List (List QueueEntry)
deriving DecidableEq

/-- `StablePriorityQueue.__init__(maxsize, max_priority=20)`. -/
def initQueue (max_priority : Nat) : StablePriorityQueue :=
  { max_priority := max_priority
    counter := 0
    priorities := List.replicate (max_priority + 1) [] }

/-- `min(getattr(item, 'PRIORITY', self.default_priority),
self.default_priority)` with `default_priority = max_priority`. -/
def effectivePriority (max_priority : Nat) (it : QueueItem) : Nat :=
  min (it.PRIORITY.getD max_priority) max_priority

/-- Append `x` to the bucket at index `i` (a no-op when `i` is out of
range, which cannot happen for an effective priority). -/
def appendAt (i : Nat) (x : QueueEntry) :
    List (List QueueEntry) → List (List QueueEntry)
  | [] => []
  | b :: bs =>
    match i with
    | 0 => (b ++ [x]) :: bs
    | j + 1 => b :: appendAt j x bs

/-- `StablePriorityQueue._put` (src/wgot/utils.py lines 69-72), stamping
the stored entry with the enqueue counter. -/
def qput (q : StablePriorityQueue) (it : QueueItem) : StablePriorityQueue :=
  { q with
    counter := q.counter + 1
    priorities :=
      appendAt (effectivePriority q.max_priority it)
        { seq := q.counter, item := it } q.priorities }

/-- Pop the head of the first non-empty bucket, scanning buckets in index
order — the loop of `StablePriorityQueue._get` (src/wgot/utils.py lines
74-78). -/
def popFirst : List (List QueueEntry) →
    Option (QueueEntry × List (List QueueEntry))
  | [] => none
  | [] :: bs => (popFirst bs).map (fun r => (r.1, [] :: r.2))
  | (x :: xs) :: bs => some (x, xs :: bs)

/-- `StablePriorityQueue._get`. -/
def qget (q : StablePriorityQueue) :
    Option (QueueEntry × StablePriorityQueue) :=
  (popFirst q.priorities).map (fun r => (r.1, { q with priorities := r.2 }))

/-- An interleaving step: a `put` of an item, or a `get`. -/
inductive QueueOp
  | put (it : QueueItem)
  | get

/-- Run a sequence of puts and gets from a given state (a `get` on an
empty queue is a no-op; `queue.Queue` blocks instead of calling `_get`
then). -/
def runQueue (q : StablePriorityQueue) : List QueueOp → StablePriorityQueue
  | [] => q
  | QueueOp.put it :: ops => runQueue (qput q it) ops
  | QueueOp.get :: ops =>
      match qget q with
      | none => runQueue q ops
      | some r => runQueue r.2 ops

lemma appendAt_length (i : Nat) (x : QueueEntry) :
    ∀ bs : List (List QueueEntry), (appendAt i x bs).length = bs.length := by
  induction i with
  | zero =>
      intro bs
      cases bs <;> simp [appendAt]
  | succ j ih =>
      intro bs
      cases bs with
      | nil => simp [appendAt]
      | cons b bs => simp [appendAt, ih bs]

lemma appendAt_mem (i : Nat) (x : QueueEntry) :
    ∀ (bs : List (List QueueEntry)) (b : List QueueEntry),
      b ∈ appendAt i x bs → b ∈ bs ∨ ∃ c ∈ bs, b = c ++ [x] := by
  induction i with
  | zero =>
      intro bs b hb
      cases bs with
      | nil => simp [appendAt] at hb
      | cons c cs =>
          simp only [appendAt] at hb
          rcases List.mem_cons.mp hb with rfl | hb
          · exact Or.inr ⟨c, List.mem_cons_self _ _, rfl⟩
          · exact Or.inl (List.mem_cons_of_mem _ hb)
  | succ j ih =>
      intro bs b hb
      cases bs with
      | nil => simp [appendAt] at hb
      | cons c cs =>
          simp only [appendAt] at hb
          rcases List.mem_cons.mp hb with rfl | hb
          · exact Or.inl (List.mem_cons_self _ _)
          · rcases ih cs b hb with h | ⟨d, hd, rfl⟩
            · exact Or.inl (List.mem_cons_of_mem _ h)
            · exact Or.inr ⟨d, List.mem_cons_of_mem _ hd, rfl⟩

lemma appendAt_getD (x : QueueEntry) :
    ∀ (bs : List (List QueueEntry)) (i j : Nat), i < bs.length →
      (appendAt i x bs).getD j [] =
        if j = i then bs.getD j [] ++ [x] else bs.getD j [] := by
  intro bs
  induction bs with
  | nil => intro i j h; simp at h
  | cons b cs ih =>
      intro i j h
      match i, j with
      | 0, 0 => simp [appendAt]
      | 0, j + 1 => simp [appendAt]
      | i + 1, 0 => simp [appendAt]
      | i + 1, j + 1 =>
          simp only [appendAt, List.getD_cons_succ]
          rw [ih i j (by simpa using h)]
          by_cases hij : j = i
          · subst hij
            simp
          · rw [if_neg hij, if_neg (by omega)]

lemma popFirst_none (bs : List (List QueueEntry)) :
    popFirst bs = none → ∀ b ∈ bs, b = [] := by
  induction bs with
  | nil => intro _ b hb; simp at hb
  | cons b cs ih =>
      intro h c hc
      match b with
      | [] =>
          simp only [popFirst, Option.map_eq_none'] at h
          rcases List.mem_cons.mp hc with rfl | hc
          · rfl
          · exact ih h c hc
      | x :: xs => simp [popFirst] at h

lemma popFirst_some (e : QueueEntry) :
    ∀ (bs rest : List (List QueueEntry)), popFirst bs = some (e, rest) →
      ∃ i ys, (∀ j, j < i → bs.getD j [] = []) ∧
        bs.getD i [] = e :: ys ∧ rest = bs.set i ys := by
  intro bs
  induction bs with
  | nil => intro rest h; simp [popFirst] at h
  | cons b cs ih =>
      intro rest h
      match b with
      | [] =>
          simp only [popFirst] at h
          match hcs : popFirst cs with
          | none => rw [hcs] at h; simp at h
          | some r =>
              rw [hcs] at h
              simp only [Option.map_some', Option.some_inj] at h
              obtain ⟨i, ys, h1, h2, h3⟩ := ih r.2 (by
                rw [hcs]
                cases h
                rfl)
              refine ⟨i + 1, ys, ?_, ?_, ?_⟩
              · intro j hj
                match j with
                | 0 => rfl
                | j + 1 => exact h1 j (by omega)
              · simpa using h2
              · have : rest = [] :: r.2 := by cases h; rfl
                rw [this, h3]
                rfl
      | x :: xs =>
          simp only [popFirst, Option.some_inj] at h
          refine ⟨0, xs, by omega, ?_, ?_⟩
          · have : e = x := by cases h; rfl
            rw [this]
            rfl
          · have : rest = xs :: cs := by cases h; rfl
            rw [this]
            rfl

/-- The reachability invariant: `max_priority + 1` buckets, every stored
stamp below the counter, and every bucket sorted by stamp (so the bucket
head is the earliest-enqueued entry of its level). -/
def queueInv (q : StablePriorityQueue) : Prop :=
  q.priorities.length = q.max_priority + 1 ∧
    ∀ b ∈ q.priorities,
      List.Pairwise (fun e1 e2 : QueueEntry => e1.seq < e2.seq) b ∧
        ∀ e ∈ b, e.seq < q.counter

lemma queueInv_init (m : Nat) : queueInv (initQueue m) := by
  constructor
  · simp [initQueue]
  · intro b hb
    have : b = [] := List.eq_of_mem_replicate hb
    subst this
    simp

lemma queueInv_put (q : StablePriorityQueue) (it : QueueItem)
    (h : queueInv q) : queueInv (qput q it) := by
  obtain ⟨hlen, hbuckets⟩ := h
  constructor
  · simp [qput, appendAt_length, hlen]
  · intro b hb
    simp only [qput] at hb
    rcases appendAt_mem _ _ _ _ hb with hmem | ⟨c, hc, rfl⟩
    · obtain ⟨hsorted, hseq⟩ := hbuckets b hmem
      exact ⟨hsorted, fun e he => Nat.lt_succ_of_lt (hseq e he)⟩
    · obtain ⟨hsorted, hseq⟩ := hbuckets c hc
      constructor
      · rw [List.pairwise_append]
        refine ⟨hsorted, List.pairwise_singleton _ _, ?_⟩
        intro e he x hx
        rw [List.mem_singleton] at hx
        subst hx
        exact hseq e he
      · intro e he
        rcases List.mem_append.mp he with he | he
        · exact Nat.lt_succ_of_lt (hseq e he)
        · rw [List.mem_singleton] at he
          subst he
          exact Nat.lt_succ_self _

lemma queueInv_get (q : StablePriorityQueue) (e : QueueEntry)
    (rest : StablePriorityQueue) (h : queueInv q)
    (hget : qget q = some (e, rest)) : queueInv rest := by
  obtain ⟨hlen, hbuckets⟩ := h
  simp only [qget] at hget
  match hpop : popFirst q.priorities with
  | none => rw [hpop] at hget; simp at hget
  | some r =>
      rw [hpop] at hget
      simp only [Option.map_some', Option.some_inj] at hget
      obtain ⟨i, ys, -, h2, h3⟩ := popFirst_some r.1 q.priorities r.2 (by
        rw [hpop])
      have hrest : rest = { q with priorities := r.2 } := by cases hget; rfl
      subst hrest
      constructor
      · simp only [h3, List.length_set]
        exact hlen
      · intro b hb
        simp only [h3] at hb
        rcases List.mem_or_eq_of_mem_set hb with hmem | rfl
        · exact hbuckets b hmem
        · have hiy : e :: b ∈ q.priorities := by
            have hilen : i < q.priorities.length := by
              by_contra hge
              push_neg at hge
              rw [List.getD_eq_default _ _ hge] at h2
              exact List.noConfusion h2
            have := List.getD_eq_getElem q.priorities [] hilen
            have hmem2 : q.priorities.getD i [] ∈ q.priorities := by
              rw [this]
              exact List.getElem_mem _
            rw [h2] at hmem2
            have he : r.1 = e := by cases hget; rfl
            rw [he] at hmem2
            exact hmem2
          obtain ⟨hsorted, hseq⟩ := hbuckets _ hiy
          exact ⟨List.Pairwise.of_cons hsorted,
            fun x hx => hseq x (List.mem_cons_of_mem _ hx)⟩

lemma queueInv_run :
    ∀ (ops : List QueueOp) (q : StablePriorityQueue), queueInv q →
      queueInv (runQueue q ops) := by
  intro ops
  induction ops with
  | nil => intro q h; exact h
  | cons op ops ih =>
      intro q h
      match op with
      | QueueOp.put it => exact ih _ (queueInv_put q it h)
      | QueueOp.get =>
          simp only [runQueue]
          match hget : qget q with
          | none => exact ih q h
          | some r => exact ih r.2 (queueInv_get q r.1 r.2 h (by rw [hget]))

/-- C4: for every interleaving of puts and gets from a fresh queue —
`put` stores its item at priority `min(item.PRIORITY, max_priority)`
(at `max_priority` when the item has no priority), appending it at the
back of that bucket and touching no other bucket; a returning `get` pops
the head of the lowest-indexed non-empty bucket, and that head is the
earliest-enqueued (least-stamped) entry of that bucket; a `get`
returning nothing means every bucket is empty. -/
theorem stable_priority_queue_semantics (m : Nat) (ops : List QueueOp) :
    (∀ it j, j ≤ (runQueue (initQueue m) ops).max_priority →
      (qput (runQueue (initQueue m) ops) it).priorities.getD j [] =
        (if j = effectivePriority (runQueue (initQueue m) ops).max_priority it
          then (runQueue (initQueue m) ops).priorities.getD j [] ++
            [{ seq := (runQueue (initQueue m) ops).counter, item := it }]
          else (runQueue (initQueue m) ops).priorities.getD j [])) ∧
    (∀ it, effectivePriority (runQueue (initQueue m) ops).max_priority it =
      min (it.PRIORITY.getD (runQueue (initQueue m) ops).max_priority)
        (runQueue (initQueue m) ops).max_priority) ∧
    (qget (runQueue (initQueue m) ops) = none →
      ∀ b ∈ (runQueue (initQueue m) ops).priorities, b = []) ∧
    (∀ e rest, qget (runQueue (initQueue m) ops) = some (e, rest) →
      ∃ i ys,
        (∀ j, j < i → (runQueue (initQueue m) ops).priorities.getD j [] = []) ∧
        (runQueue (initQueue m) ops).priorities.getD i [] = e :: ys ∧
        rest.priorities = (runQueue (initQueue m) ops).priorities.set i ys ∧
        (∀ x ∈ (runQueue (initQueue m) ops).priorities.getD i [],
          e.seq ≤ x.seq)) := by
  have hinv : queueInv (runQueue (initQueue m) ops) :=
    queueInv_run ops (initQueue m) (queueInv_init m)
  obtain ⟨hlen, hbuckets⟩ := hinv
  refine ⟨?_, fun it => rfl, ?_, ?_⟩
  · intro it j hj
    have hip : effectivePriority (runQueue (initQueue m) ops).max_priority it <
        (runQueue (initQueue m) ops).priorities.length := by
      rw [hlen]
      have : effectivePriority (runQueue (initQueue m) ops).max_priority it ≤
          (runQueue (initQueue m) ops).max_priority :=
        min_le_right _ _
      omega
    simp only [qput]
    rw [appendAt_getD _ _ _ _ hip]
  · intro h
    apply popFirst_none
    simp only [qget, Option.map_eq_none'] at h
    exact h
  · intro e rest hget
    simp only [qget] at hget
    match hpop : popFirst (runQueue (initQueue m) ops).priorities with
    | none => rw [hpop] at hget; simp at hget
    | some r =>
        rw [hpop] at hget
        simp only [Option.map_some', Option.some_inj] at hget
        have he : r.1 = e := by cases hget; rfl
        have hrest : rest = { runQueue (initQueue m) ops with priorities := r.2 } := by
          cases hget
          rfl
        obtain ⟨i, ys, h1, h2, h3⟩ :=
          popFirst_some r.1 (runQueue (initQueue m) ops).priorities r.2 (by rw [hpop])
        rw [he] at h2
        refine ⟨i, ys, h1, h2, by rw [hrest, h3], ?_⟩
        intro x hx
        have hmem : (runQueue (initQueue m) ops).priorities.getD i [] ∈
            (runQueue (initQueue m) ops).priorities := by
          have hilen : i < (runQueue (initQueue m) ops).priorities.length := by
            by_contra hge
            push_neg at hge
            rw [List.getD_eq_default _ _ hge] at h2
            exact List.noConfusion h2
          rw [List.getD_eq_getElem _ [] hilen]
          exact List.getElem_mem _
        rw [h2] at hmem
        obtain ⟨hsorted, -⟩ := hbuckets _ hmem
        rw [h2] at hx
        rcases List.mem_cons.mp hx with rfl | hx
        · exact le_refl _
        · exact le_of_lt ((List.pairwise_cons.mp hsorted).1 x hx)

end Wgot
